import Mathlib

/-!
# Verification of the Syntria Markdown-subset renderer

Shallow embedding of `markdownToHtml` from `src/pages/Workbench.tsx`,
working over `List Char` (a JS string as a sequence of characters).

The JS function splits the document on `'\n'`, trims each line, and
classifies it as heading / list item / paragraph / blank, keeping one
boolean `inList` of state.  Inline bold and italic substitution are the
JS regex replacements `/\*\*(.+?)\*\*/g`, `/\*(.+?)\*/g` (list items)
and `/\*([^*]+?)\*/g` (paragraphs), modelled with the exact non-greedy,
left-to-right, dot-excludes-line-terminators semantics of JS regexes.
-/

/-- The JS whitespace class: characters matched by `\s` and removed by
`String.prototype.trim` (WhiteSpace ∪ LineTerminator). -/
def isJsWs (c : Char) : Bool :=
  c = ' ' || c = '\t' || c = '\n' || c = '\r' ||
  c.toNat = 0x0B || c.toNat = 0x0C || c.toNat = 0xA0 || c.toNat = 0x1680 ||
  (0x2000 ≤ c.toNat && c.toNat ≤ 0x200A) ||
  c.toNat = 0x2028 || c.toNat = 0x2029 || c.toNat = 0x202F ||
  c.toNat = 0x205F || c.toNat = 0x3000 || c.toNat = 0xFEFF

/-- JS line terminators: the characters that the regex `.` does NOT match. -/
def isLineTerm (c : Char) : Bool :=
  c = '\n' || c = '\r' || c.toNat = 0x2028 || c.toNat = 0x2029

/-- `String.prototype.trim`: strip JS whitespace from both ends. -/
def trim (l : List Char) : List Char :=
  ((l.dropWhile isJsWs).reverse.dropWhile isJsWs).reverse

/-- `markdown.split('\n')`: split on newline; the empty string yields
one empty line, and a trailing newline yields a trailing empty line. -/
def splitLines : List Char → List (List Char)
  | [] => [[]]
  | c :: rest =>
    if c = '\n' then [] :: splitLines rest
    else
      match splitLines rest with
      | [] => [[c]]
      | l :: ls => (c :: l) :: ls

/-- Lazy search for the body of a `\*\*(.+?)\*\*` match: consume at least
one `.`-matchable character, stopping at the first following `**`.
Returns the captured content and the remainder after the closing `**`. -/
def close2 : List Char → Option (List Char × List Char)
  | [] => none
  | a :: rest =>
    if isLineTerm a then none
    else if rest.head? = some '*' && rest.tail.head? = some '*' then
      some ([a], rest.tail.tail)
    else (close2 rest).map (fun p => (a :: p.1, p.2))

/-- Lazy search for the body of a `\*(.+?)\*` match: at least one
`.`-matchable character, stopping at the first following `*`. -/
def close1 : List Char → Option (List Char × List Char)
  | [] => none
  | a :: rest =>
    if isLineTerm a then none
    else if rest.head? = some '*' then some ([a], rest.tail)
    else (close1 rest).map (fun p => (a :: p.1, p.2))

/-- Lazy search for the body of a `\*([^*]+?)\*` match: at least one
non-`*` character (the negated class also matches line terminators),
stopping at the first following `*`. -/
def close1NoStar : List Char → Option (List Char × List Char)
  | [] => none
  | a :: rest =>
    if a = '*' then none
    else if rest.head? = some '*' then some ([a], rest.tail)
    else (close1NoStar rest).map (fun p => (a :: p.1, p.2))

/-- One pass of `replace(/\*\*(.+?)\*\*/g, '<strong>$1</strong>')`,
scanning left to right with explicit fuel (one unit per scan position;
the scan advances by at least one character per step). -/
def boldF : Nat → List Char → List Char
  | 0, l => l
  | _ + 1, [] => []
  | n + 1, a :: rest =>
    if a = '*' && rest.head? = some '*' then
      match close2 rest.tail with
      | some (c, r) =>
        "<strong>".toList ++ c ++ "</strong>".toList ++ boldF n r
      | none => a :: boldF n rest
    else a :: boldF n rest

/-- One pass of `replace(/\*(.+?)\*/g, '<em>$1</em>')` (list items). -/
def emAnyF : Nat → List Char → List Char
  | 0, l => l
  | _ + 1, [] => []
  | n + 1, a :: rest =>
    if a = '*' then
      match close1 rest with
      | some (c, r) => "<em>".toList ++ c ++ "</em>".toList ++ emAnyF n r
      | none => a :: emAnyF n rest
    else a :: emAnyF n rest

/-- One pass of `replace(/\*([^*]+?)\*/g, '<em>$1</em>')` (paragraphs). -/
def emNoStarF : Nat → List Char → List Char
  | 0, l => l
  | _ + 1, [] => []
  | n + 1, a :: rest =>
    if a = '*' then
      match close1NoStar rest with
      | some (c, r) =>
        "<em>".toList ++ c ++ "</em>".toList ++ emNoStarF n r
      | none => a :: emNoStarF n rest
    else a :: emNoStarF n rest

/-- `listItem.replace(/\*\*(.+?)\*\*/g, '<strong>$1</strong>')` etc.:
length + 1 units of fuel always suffice (proved via the fuel-monitored
interpreter below). -/
def boldReplace (l : List Char) : List Char := boldF (l.length + 1) l

def emAny (l : List Char) : List Char := emAnyF (l.length + 1) l

def emNoStar (l : List Char) : List Char := emNoStarF (l.length + 1) l

/-- Inline substitution on a list item: bold first, then the
any-content italic regex `/\*(.+?)\*/g`. -/
def processListItem (c : List Char) : List Char := emAny (boldReplace c)

/-- Inline substitution on a paragraph: bold first, then the
no-`*`-content italic regex `/\*([^*]+?)\*/g`. -/
def processParagraph (c : List Char) : List Char := emNoStar (boldReplace c)

/-- `trimmed.match(/^[-*]\s+(.+)$/)`: a `-` or `*`, at least one JS
whitespace, then content running to the end of the line.  `.` does not
match line terminators, so content containing one makes the whole regex
fail; if everything after the marker is whitespace, backtracking lets
the final whitespace character serve as the content, provided `.` can
match it. -/
def listMatch (t : List Char) : Option (List Char) :=
  match t with
  | [] => none
  | c :: rest =>
    if (c = '-' || c = '*') && !(rest.takeWhile isJsWs).isEmpty then
      let content := rest.dropWhile isJsWs
      if content.isEmpty then
        match rest.getLast? with
        | some d =>
          if decide (2 ≤ rest.length) && !isLineTerm d then some [d] else none
        | none => none
      else if content.any isLineTerm then none
      else some content
    else none

/-- One entry of the `result` array: each constructor is one
`result.push(...)` template of the source. -/
inductive Frag : Type
  | ulOpen : Frag
  | ulClose : Frag
  | li : List Char → Frag
  | h1 : List Char → Frag
  | h2 : List Char → Frag
  | h3 : List Char → Frag
  | p : List Char → Frag
  | br : Frag
  deriving DecidableEq

/-- The exact markup text pushed for each fragment. -/
def renderFrag : Frag → List Char
  | Frag.ulOpen => "<ul class=\"list-disc list-inside space-y-1 my-2 ml-4\">".toList
  | Frag.ulClose => "</ul>".toList
  | Frag.li c => "<li>".toList ++ c ++ "</li>".toList
  | Frag.h1 c => "<h1 class=\"text-2xl font-bold mt-8 mb-4\">".toList ++ c ++ "</h1>".toList
  | Frag.h2 c => "<h2 class=\"text-xl font-bold mt-6 mb-3\">".toList ++ c ++ "</h2>".toList
  | Frag.h3 c => "<h3 class=\"text-lg font-semibold mt-4 mb-2\">".toList ++ c ++ "</h3>".toList
  | Frag.p c => "<p class=\"mb-2\">".toList ++ c ++ "</p>".toList
  | Frag.br => "<br>".toList

/-- The body of one iteration of the `for` loop: given the trimmed
line, whether it is the last line (`i = lines.length - 1`) and the
current `inList` flag, return the fragments pushed and the new flag. -/
def lineFrags (t : List Char) (isLast inList : Bool) : List Frag × Bool :=
  if "### ".toList.isPrefixOf t then
    ((if inList then [Frag.ulClose] else []) ++ [Frag.h3 (t.drop 4)], false)
  else if "## ".toList.isPrefixOf t then
    ((if inList then [Frag.ulClose] else []) ++ [Frag.h2 (t.drop 3)], false)
  else if "# ".toList.isPrefixOf t then
    ((if inList then [Frag.ulClose] else []) ++ [Frag.h1 (t.drop 2)], false)
  else
    match listMatch t with
    | some c =>
      ((if inList then [] else [Frag.ulOpen]) ++ [Frag.li (processListItem c)],
       true)
    | none =>
      let closing := if inList then [Frag.ulClose] else []
      if !t.isEmpty then (closing ++ [Frag.p (processParagraph t)], false)
      else if !isLast then (closing ++ [Frag.br], false)
      else (closing, false)

/-- The whole `for` loop plus the final `if (inList) result.push('</ul>')`. -/
def goFrags : List (List Char) → Bool → List Frag
  | [], inList => if inList then [Frag.ulClose] else []
  | l :: rest, inList =>
    let p := lineFrags (trim l) rest.isEmpty inList
    p.1 ++ goFrags rest p.2

/-- `markdownToHtml`: split into lines, run the loop, join the pushed
fragments with the empty separator. -/
def markdownToHtml (m : List Char) : List Char :=
  ((goFrags (splitLines m) false).map renderFrag).flatten

/-- Number of occurrences of `p` as a substring of `l` (number of
starting positions at which `p` is a prefix of the rest). -/
def countOcc (p l : List Char) : Nat :=
  (List.range (l.length + 1)).countP (fun i => p.isPrefixOf (l.drop i))

/-- Number of fragments equal to `f`. -/
def fragCount (f : Frag) : List Frag → Nat
  | [] => 0
  | g :: rest => (if g = f then 1 else 0) + fragCount f rest

/-!
## Fuel-monitored interpreter

The same computation with every loop drawing from explicit fuel and
failing (`none`) on exhaustion.  Proving that it returns
`some (markdownToHtml m)` for a computable amount of fuel shows the
iterative process described by the source terminates on every input.
-/

/-- `boldF` with fuel exhaustion made observable. -/
def boldFO : Nat → List Char → Option (List Char)
  | 0, _ => none
  | _ + 1, [] => some []
  | n + 1, a :: rest =>
    if a = '*' && rest.head? = some '*' then
      match close2 rest.tail with
      | some (c, r) =>
        (boldFO n r).map
          (fun t => "<strong>".toList ++ c ++ "</strong>".toList ++ t)
      | none => (boldFO n rest).map (fun t => a :: t)
    else (boldFO n rest).map (fun t => a :: t)

/-- `emAnyF` with fuel exhaustion made observable. -/
def emAnyFO : Nat → List Char → Option (List Char)
  | 0, _ => none
  | _ + 1, [] => some []
  | n + 1, a :: rest =>
    if a = '*' then
      match close1 rest with
      | some (c, r) =>
        (emAnyFO n r).map (fun t => "<em>".toList ++ c ++ "</em>".toList ++ t)
      | none => (emAnyFO n rest).map (fun t => a :: t)
    else (emAnyFO n rest).map (fun t => a :: t)

/-- `emNoStarF` with fuel exhaustion made observable. -/
def emNoStarFO : Nat → List Char → Option (List Char)
  | 0, _ => none
  | _ + 1, [] => some []
  | n + 1, a :: rest =>
    if a = '*' then
      match close1NoStar rest with
      | some (c, r) =>
        (emNoStarFO n r).map (fun t => "<em>".toList ++ c ++ "</em>".toList ++ t)
      | none => (emNoStarFO n rest).map (fun t => a :: t)
    else (emNoStarFO n rest).map (fun t => a :: t)

/-- Fuel-monitored list-item substitution. -/
def processListItemO (c : List Char) : Option (List Char) :=
  (boldFO (c.length + 1) c).bind fun x => emAnyFO (x.length + 1) x

/-- Fuel-monitored paragraph substitution. -/
def processParagraphO (c : List Char) : Option (List Char) :=
  (boldFO (c.length + 1) c).bind fun x => emNoStarFO (x.length + 1) x

/-- Fuel-monitored loop body. -/
def lineFragsO (t : List Char) (isLast inList : Bool) :
    Option (List Frag × Bool) :=
  if "### ".toList.isPrefixOf t then
    some ((if inList then [Frag.ulClose] else []) ++ [Frag.h3 (t.drop 4)], false)
  else if "## ".toList.isPrefixOf t then
    some ((if inList then [Frag.ulClose] else []) ++ [Frag.h2 (t.drop 3)], false)
  else if "# ".toList.isPrefixOf t then
    some ((if inList then [Frag.ulClose] else []) ++ [Frag.h1 (t.drop 2)], false)
  else
    match listMatch t with
    | some c =>
      (processListItemO c).map fun pc =>
        ((if inList then [] else [Frag.ulOpen]) ++ [Frag.li pc], true)
    | none =>
      let closing := if inList then [Frag.ulClose] else []
      if !t.isEmpty then
        (processParagraphO t).map fun pp => (closing ++ [Frag.p pp], false)
      else if !isLast then some (closing ++ [Frag.br], false)
      else some (closing, false)

/-- Fuel-monitored loop: one unit of fuel per line. -/
def goFragsO : Nat → List (List Char) → Bool → Option (List Frag)
  | 0, _, _ => none
  | _ + 1, [], inList => some (if inList then [Frag.ulClose] else [])
  | n + 1, l :: rest, inList =>
    (lineFragsO (trim l) rest.isEmpty inList).bind fun p =>
      (goFragsO n rest p.2).map fun fs => p.1 ++ fs

/-- Fuel-monitored `markdownToHtml`. -/
def markdownToHtmlO (n : Nat) (m : List Char) : Option (List Char) :=
  (goFragsO n (splitLines m) false).map fun fs =>
    (fs.map renderFrag).flatten

/-!
## Helper lemmas
-/

theorem close2_length :
    ∀ (l c r : List Char), close2 l = some (c, r) → r.length < l.length := by
  intro l
  induction l with
  | nil => intro c r h; simp [close2] at h
  | cons a rest ih =>
    intro c r h
    simp only [close2] at h
    split at h
    · exact absurd h (by simp)
    · split at h
      · rw [Option.some.injEq, Prod.mk.injEq] at h
        obtain ⟨-, h2⟩ := h
        subst h2
        have h1 := List.length_tail rest
        have h2 := List.length_tail rest.tail
        simp only [List.length_cons]
        omega
      · rcases hc : close2 rest with _ | ⟨cc, rr⟩
        · rw [hc] at h; simp at h
        · rw [hc] at h
          simp only [Option.map_some'] at h
          rw [Option.some.injEq, Prod.mk.injEq] at h
          obtain ⟨-, h2⟩ := h
          subst h2
          have := ih cc rr hc
          simp only [List.length_cons]
          omega

theorem close1_length :
    ∀ (l c r : List Char), close1 l = some (c, r) → r.length < l.length := by
  intro l
  induction l with
  | nil => intro c r h; simp [close1] at h
  | cons a rest ih =>
    intro c r h
    simp only [close1] at h
    split at h
    · exact absurd h (by simp)
    · split at h
      · rw [Option.some.injEq, Prod.mk.injEq] at h
        obtain ⟨-, h2⟩ := h
        subst h2
        have h1 := List.length_tail rest
        simp only [List.length_cons]
        omega
      · rcases hc : close1 rest with _ | ⟨cc, rr⟩
        · rw [hc] at h; simp at h
        · rw [hc] at h
          simp only [Option.map_some'] at h
          rw [Option.some.injEq, Prod.mk.injEq] at h
          obtain ⟨-, h2⟩ := h
          subst h2
          have := ih cc rr hc
          simp only [List.length_cons]
          omega

theorem close1NoStar_length :
    ∀ (l c r : List Char), close1NoStar l = some (c, r) → r.length < l.length := by
  intro l
  induction l with
  | nil => intro c r h; simp [close1NoStar] at h
  | cons a rest ih =>
    intro c r h
    simp only [close1NoStar] at h
    split at h
    · exact absurd h (by simp)
    · split at h
      · rw [Option.some.injEq, Prod.mk.injEq] at h
        obtain ⟨-, h2⟩ := h
        subst h2
        have h1 := List.length_tail rest
        simp only [List.length_cons]
        omega
      · rcases hc : close1NoStar rest with _ | ⟨cc, rr⟩
        · rw [hc] at h; simp at h
        · rw [hc] at h
          simp only [Option.map_some'] at h
          rw [Option.some.injEq, Prod.mk.injEq] at h
          obtain ⟨-, h2⟩ := h
          subst h2
          have := ih cc rr hc
          simp only [List.length_cons]
          omega

theorem boldFO_eq :
    ∀ (n : Nat) (l : List Char), l.length < n →
      boldFO n l = some (boldF n l) := by
  intro n
  induction n with
  | zero => intro l h; omega
  | succ n ih =>
    intro l h
    match l with
    | [] => simp [boldFO, boldF]
    | a :: rest =>
      have hrest : rest.length < n := by
        simp only [List.length_cons] at h; omega
      simp only [boldFO, boldF]
      by_cases hcond : a = '*' && rest.head? = some '*'
      · simp only [if_pos hcond]
        rcases hc : close2 rest.tail with _ | ⟨c, r⟩
        · dsimp only
          rw [ih rest hrest]; simp
        · dsimp only
          have hr : r.length < n := by
            have h1 := close2_length _ _ _ hc
            have h2 := List.length_tail rest
            omega
          rw [ih r hr]; simp
      · simp only [if_neg hcond]
        rw [ih rest hrest]; simp

theorem emAnyFO_eq :
    ∀ (n : Nat) (l : List Char), l.length < n →
      emAnyFO n l = some (emAnyF n l) := by
  intro n
  induction n with
  | zero => intro l h; omega
  | succ n ih =>
    intro l h
    match l with
    | [] => simp [emAnyFO, emAnyF]
    | a :: rest =>
      have hrest : rest.length < n := by
        simp only [List.length_cons] at h; omega
      simp only [emAnyFO, emAnyF]
      by_cases hcond : a = '*'
      · simp only [if_pos hcond]
        rcases hc : close1 rest with _ | ⟨c, r⟩
        · dsimp only
          rw [ih rest hrest]; simp
        · dsimp only
          have hr : r.length < n := by
            have h1 := close1_length _ _ _ hc
            omega
          rw [ih r hr]; simp
      · simp only [if_neg hcond]
        rw [ih rest hrest]; simp

theorem emNoStarFO_eq :
    ∀ (n : Nat) (l : List Char), l.length < n →
      emNoStarFO n l = some (emNoStarF n l) := by
  intro n
  induction n with
  | zero => intro l h; omega
  | succ n ih =>
    intro l h
    match l with
    | [] => simp [emNoStarFO, emNoStarF]
    | a :: rest =>
      have hrest : rest.length < n := by
        simp only [List.length_cons] at h; omega
      simp only [emNoStarFO, emNoStarF]
      by_cases hcond : a = '*'
      · simp only [if_pos hcond]
        rcases hc : close1NoStar rest with _ | ⟨c, r⟩
        · dsimp only
          rw [ih rest hrest]; simp
        · dsimp only
          have hr : r.length < n := by
            have h1 := close1NoStar_length _ _ _ hc
            omega
          rw [ih r hr]; simp
      · simp only [if_neg hcond]
        rw [ih rest hrest]; simp

theorem processListItemO_eq (c : List Char) :
    processListItemO c = some (processListItem c) := by
  unfold processListItemO processListItem
  rw [boldFO_eq _ _ (Nat.lt_succ_self _)]
  simp only [Option.some_bind]
  exact emAnyFO_eq _ _ (Nat.lt_succ_self _)

theorem processParagraphO_eq (c : List Char) :
    processParagraphO c = some (processParagraph c) := by
  unfold processParagraphO processParagraph
  rw [boldFO_eq _ _ (Nat.lt_succ_self _)]
  simp only [Option.some_bind]
  exact emNoStarFO_eq _ _ (Nat.lt_succ_self _)

theorem lineFragsO_eq (t : List Char) (isLast inList : Bool) :
    lineFragsO t isLast inList = some (lineFrags t isLast inList) := by
  unfold lineFragsO lineFrags
  split
  · rfl
  · split
    · rfl
    · split
      · rfl
      · rcases h : listMatch t with _ | c
        · simp only [h]
          split
          · rw [processParagraphO_eq]; simp
          · split <;> rfl
        · simp only [h]
          rw [processListItemO_eq]; simp

theorem goFragsO_eq :
    ∀ (n : Nat) (ls : List (List Char)) (b : Bool), ls.length < n →
      goFragsO n ls b = some (goFrags ls b) := by
  intro n
  induction n with
  | zero => intro ls b h; omega
  | succ n ih =>
    intro ls b h
    match ls with
    | [] => rfl
    | l :: rest =>
      have hrest : rest.length < n := by
        simp only [List.length_cons] at h; omega
      simp only [goFragsO, goFrags]
      rw [lineFragsO_eq]
      simp only [Option.some_bind]
      rw [ih rest _ hrest]
      simp

theorem fragCount_append (f : Frag) (xs ys : List Frag) :
    fragCount f (xs ++ ys) = fragCount f xs + fragCount f ys := by
  induction xs with
  | nil => simp [fragCount]
  | cons g xs ih => simp [fragCount, ih]; omega

theorem lineFrags_balance (t : List Char) (isLast inList : Bool) :
    fragCount Frag.ulOpen (lineFrags t isLast inList).1
        + (if inList then 1 else 0)
      = fragCount Frag.ulClose (lineFrags t isLast inList).1
        + (if (lineFrags t isLast inList).2 then 1 else 0) := by
  unfold lineFrags
  split
  · cases inList <;> simp [fragCount]
  · split
    · cases inList <;> simp [fragCount]
    · split
      · cases inList <;> simp [fragCount]
      · rcases h : listMatch t with _ | c <;> simp only [h]
        · split
          · cases inList <;> simp [fragCount]
          · split
            · cases inList <;> simp [fragCount]
            · cases inList <;> simp [fragCount]
        · cases inList <;> simp [fragCount]

theorem goFrags_balance :
    ∀ (ls : List (List Char)) (b : Bool),
      fragCount Frag.ulOpen (goFrags ls b) + (if b then 1 else 0)
        = fragCount Frag.ulClose (goFrags ls b) := by
  intro ls
  induction ls with
  | nil => intro b; cases b <;> simp [goFrags, fragCount]
  | cons l rest ih =>
    intro b
    simp only [goFrags, fragCount_append]
    have h1 := lineFrags_balance (trim l) rest.isEmpty b
    have h2 := ih (lineFrags (trim l) rest.isEmpty b).2
    omega

theorem lineFrags_ulOpen_cases (t : List Char) (a b : Bool) :
    (∃ c, (lineFrags t a b).1 = [Frag.ulOpen, Frag.li c])
    ∨ Frag.ulOpen ∉ (lineFrags t a b).1 := by
  unfold lineFrags
  split
  · right; cases b <;> simp
  · split
    · right; cases b <;> simp
    · split
      · right; cases b <;> simp
      · rcases h : listMatch t with _ | c <;> simp only [h]
        · right
          split
          · cases b <;> simp
          · split
            · cases b <;> simp
            · cases b <;> simp
        · cases b
          · exact Or.inl ⟨processListItem c, by simp⟩
          · right; simp

theorem goFrags_ulOpen_li :
    ∀ (ls : List (List Char)) (b : Bool) (i : Nat),
      (goFrags ls b).get? i = some Frag.ulOpen →
      ∃ c, (goFrags ls b).get? (i + 1) = some (Frag.li c) := by
  intro ls
  induction ls with
  | nil =>
    intro b i h
    cases b <;> rcases i with _ | i <;> simp [goFrags, List.get?] at h
  | cons l rest ih =>
    intro b i h
    simp only [goFrags] at h ⊢
    by_cases hi : i < (lineFrags (trim l) rest.isEmpty b).1.length
    · rw [List.get?_append hi] at h
      rcases lineFrags_ulOpen_cases (trim l) rest.isEmpty b with ⟨c, hc⟩ | hno
      · rw [hc] at h hi
        rcases i with _ | _ | i
        · refine ⟨c, ?_⟩
          rw [List.get?_append (by rw [hc]; simp), hc]
          rfl
        · simp [List.get?] at h
        · simp [List.get?] at h
      · exact absurd (List.get?_mem h) hno
    · push_neg at hi
      rw [List.get?_append_right hi] at h
      obtain ⟨c, hc⟩ := ih _ _ h
      refine ⟨c, ?_⟩
      rw [List.get?_append_right (le_trans hi (Nat.le_succ _))]
      have heq : i + 1 - (lineFrags (trim l) rest.isEmpty b).1.length
          = (i - (lineFrags (trim l) rest.isEmpty b).1.length) + 1 := by omega
      rw [heq]
      exact hc

theorem listMatch_head (t : List Char) (c : List Char)
    (h : listMatch t = some c) :
    ∃ d rest, t = d :: rest ∧ (d = '-' ∨ d = '*') := by
  match t with
  | [] => simp [listMatch] at h
  | d :: rest =>
    refine ⟨d, rest, rfl, ?_⟩
    simp only [listMatch] at h
    by_cases hcond :
        ((d = '-' || d = '*') && !(rest.takeWhile isJsWs).isEmpty) = true
    · simp only [Bool.and_eq_true, Bool.or_eq_true, decide_eq_true_eq] at hcond
      exact hcond.1
    · rw [if_neg hcond] at h
      exact absurd h (by simp)

theorem listMatch_not_heading (t : List Char) (c : List Char)
    (h : listMatch t = some c) :
    ¬ (['#', '#', '#', ' '] <+: t) ∧ ¬ (['#', '#', ' '] <+: t) ∧
      ¬ (['#', ' '] <+: t) := by
  obtain ⟨d, rest, rfl, hd⟩ := listMatch_head t c h
  refine ⟨?_, ?_, ?_⟩ <;> rintro ⟨s, hs⟩ <;>
    rcases hd with rfl | rfl <;> simp at hs

/-- Unfolding of one loop iteration (stated explicitly so that proofs
can rewrite with it without losing the `++` notation). -/
theorem goFrags_cons (l : List Char) (rest : List (List Char)) (b : Bool) :
    goFrags (l :: rest) b
      = (lineFrags (trim l) rest.isEmpty b).1
          ++ goFrags rest (lineFrags (trim l) rest.isEmpty b).2 := rfl

theorem goFrags_list_block_true :
    ∀ (ls rest : List (List Char)),
      (∀ l ∈ ls, (listMatch (trim l)).isSome) →
      goFrags (ls ++ rest) true
        = ls.map
            (fun l => Frag.li (processListItem ((listMatch (trim l)).getD [])))
            ++ goFrags rest true := by
  intro ls
  induction ls with
  | nil => intro rest _; simp
  | cons a ls ih =>
    intro rest h
    have ha : (listMatch (trim a)).isSome := h a (by simp)
    rcases hm : listMatch (trim a) with _ | c
    · rw [hm] at ha; simp at ha
    · obtain ⟨h1, h2, h3⟩ := listMatch_not_heading _ _ hm
      have hlf : lineFrags (trim a) ((ls ++ rest) : List (List Char)).isEmpty true
          = ([Frag.li (processListItem c)], true) := by
        simp [lineFrags, h1, h2, h3, hm]
      rw [List.cons_append, goFrags_cons, hlf]
      rw [ih rest (fun l hl => h l (by simp [hl]))]
      simp [hm]

theorem goFrags_list_block :
    ∀ (ls rest : List (List Char)), ls ≠ [] →
      (∀ l ∈ ls, (listMatch (trim l)).isSome) →
      goFrags (ls ++ rest) false
        = Frag.ulOpen
            :: ls.map
              (fun l => Frag.li (processListItem ((listMatch (trim l)).getD [])))
            ++ goFrags rest true := by
  intro ls rest hne h
  match ls with
  | [] => exact absurd rfl hne
  | a :: ls =>
    have ha : (listMatch (trim a)).isSome := h a (by simp)
    rcases hm : listMatch (trim a) with _ | c
    · rw [hm] at ha; simp at ha
    · obtain ⟨h1, h2, h3⟩ := listMatch_not_heading _ _ hm
      have hlf : lineFrags (trim a) ((ls ++ rest) : List (List Char)).isEmpty false
          = ([Frag.ulOpen, Frag.li (processListItem c)], true) := by
        simp [lineFrags, h1, h2, h3, hm]
      rw [List.cons_append, goFrags_cons, hlf]
      rw [goFrags_list_block_true ls rest (fun l hl => h l (by simp [hl]))]
      simp [hm]

theorem lineFrags_h3 (t : List Char) (isLast inList : Bool)
    (h : "### ".toList <+: t) :
    lineFrags t isLast inList
      = ((if inList then [Frag.ulClose] else []) ++ [Frag.h3 (t.drop 4)],
         false) := by
  have h' : ['#', '#', '#', ' '] <+: t := h
  simp [lineFrags, h']

theorem lineFrags_h2 (t : List Char) (isLast inList : Bool)
    (h : "## ".toList <+: t) :
    lineFrags t isLast inList
      = ((if inList then [Frag.ulClose] else []) ++ [Frag.h2 (t.drop 3)],
         false) := by
  have h' : ['#', '#', ' '] <+: t := h
  obtain ⟨s, rfl⟩ := h'
  have hn3 : ¬ (['#', '#', '#', ' '] <+: (['#', '#', ' '] ++ s)) := by
    rintro ⟨u, hu⟩
    simp at hu
  simp [lineFrags, hn3]

theorem lineFrags_h1 (t : List Char) (isLast inList : Bool)
    (h : "# ".toList <+: t) :
    lineFrags t isLast inList
      = ((if inList then [Frag.ulClose] else []) ++ [Frag.h1 (t.drop 2)],
         false) := by
  have h' : ['#', ' '] <+: t := h
  obtain ⟨s, rfl⟩ := h'
  have hn3 : ¬ (['#', '#', '#', ' '] <+: (['#', ' '] ++ s)) := by
    rintro ⟨u, hu⟩
    simp at hu
  have hn2 : ¬ (['#', '#', ' '] <+: (['#', ' '] ++ s)) := by
    rintro ⟨u, hu⟩
    simp at hu
  simp [lineFrags, hn3, hn2]

theorem lineFrags_paragraph (t : List Char) (isLast inList : Bool)
    (hn3 : ¬ ("### ".toList <+: t)) (hn2 : ¬ ("## ".toList <+: t))
    (hn1 : ¬ ("# ".toList <+: t)) (hl : listMatch t = none) (hne : t ≠ []) :
    lineFrags t isLast inList
      = ((if inList then [Frag.ulClose] else [])
          ++ [Frag.p (emNoStar (boldReplace t))], false) := by
  have h3 : ¬ (['#', '#', '#', ' '] <+: t) := hn3
  have h2 : ¬ (['#', '#', ' '] <+: t) := hn2
  have h1 : ¬ (['#', ' '] <+: t) := hn1
  simp [lineFrags, h3, h2, h1, hl, hne, processParagraph]

/-!
## Claim theorems
-/

/-- C1 (counterexample): counting substring occurrences in the output
string, the claimed balance fails: the renderer does not escape input
text, so the document consisting of the three characters `<ul` is
rendered as a paragraph whose body contains the text `<ul`, giving one
occurrence of `<ul` and none of `</ul>`. -/
theorem ul_substring_count_unbalanced :
    ¬ (countOcc "<ul".toList (markdownToHtml "<ul".toList)
        = countOcc "</ul>".toList (markdownToHtml "<ul".toList)) := by
  decide

/-- C1 (amended): counting emitted tags rather than substrings of the
output text, the balance invariant holds for every input: the fragment
stream pushed by the renderer contains exactly as many `<ul ...>`
opening fragments as `</ul>` closing fragments, including when the
document ends while a list is still open. -/
theorem ul_fragments_balanced (m : List Char) :
    fragCount Frag.ulOpen (goFrags (splitLines m) false)
      = fragCount Frag.ulClose (goFrags (splitLines m) false) := by
  have h := goFrags_balance (splitLines m) false
  simpa using h

/-- C2: the renderer is total — for every input the fuel-monitored
interpreter, in which every loop of the source (the line loop and the
three regex replacement scans) consumes explicit fuel and fails on
exhaustion, terminates with `some` of the pure function's value; the
result is a function of the input alone. -/
theorem markdownToHtml_total (m : List Char) :
    ∃ n : Nat, markdownToHtmlO n m = some (markdownToHtml m) := by
  refine ⟨(splitLines m).length + 1, ?_⟩
  unfold markdownToHtmlO markdownToHtml
  rw [goFragsO_eq _ _ _ (Nat.lt_succ_self _)]
  rfl

/-- C3 (counterexample): "trailing blank lines produce no output" is
false: `"line1\n\n"` splits into `line1` and two empty lines, and the
first of the two trailing blank lines (empty but not last) emits a
`<br>`, so the output is the output for `"line1"` with `<br>`
appended. -/
theorem trailing_blank_line_emits_br :
    goFrags (splitLines "line1\n\n".toList) false
      = [Frag.p "line1".toList, Frag.br]
    ∧ markdownToHtml "line1\n\n".toList
        = markdownToHtml "line1".toList ++ "<br>".toList := by
  exact ⟨by decide, by decide⟩

/-- C3 (amended): a line that trims to empty and is not the last line
emits exactly one standalone `<br>` (after the `</ul>` closing a list,
if one is open); a blank line that is the last line emits nothing; it
is only the final blank line that produces no output — earlier trailing
blank lines each emit a `<br>`.  `"line1\n\nline2"` has a `<br>`
between the two paragraphs, and in `"line1\n\n"` the final empty line
contributes no fragment (the `<br>` is the penultimate blank line's). -/
theorem blank_line_emission :
    (∀ (l : List Char) (isLast inList : Bool), trim l = [] →
        (lineFrags (trim l) isLast inList).1
          = (if inList then [Frag.ulClose] else [])
              ++ (if isLast then [] else [Frag.br]))
    ∧ markdownToHtml "line1\n\nline2".toList
        = "<p class=\"mb-2\">line1</p><br><p class=\"mb-2\">line2</p>".toList
    ∧ goFrags (splitLines "line1\n\n".toList) false
        = [Frag.p "line1".toList, Frag.br] := by
  refine ⟨?_, by decide, by decide⟩
  intro l isLast inList h
  rw [h]
  cases isLast <;> cases inList <;> rfl

/-- Witness for the amended C3 at a concrete blank line. -/
theorem blank_line_emission_witness :
    trim [' '] = [] ∧
      (lineFrags (trim [' ']) false true).1
        = (if true then [Frag.ulClose] else [])
            ++ (if false then [] else [Frag.br]) :=
  ⟨by decide, blank_line_emission.1 [' '] false true (by decide)⟩

/-- C4 (counterexample): the inline substitution applied to list items
is NOT the same function as the one applied to paragraphs: on the
content `**x*` the list-item italic regex `/\*(.+?)\*/` captures the
span `*x` (its lazy dot may consume a `*`), yielding `<em>*x</em>`,
while the paragraph italic regex `/\*([^*]+?)\*/` cannot, yielding
`*<em>x</em>`. -/
theorem inline_substitution_differs :
    processListItem "**x*".toList ≠ processParagraph "**x*".toList := by
  decide

/-- C4 (amended): both substitutions apply bold first and italic
second, but they are different functions: the list-item italic pattern
is `/\*(.+?)\*/g` (whose lazily matched content can start with a `*`)
while the paragraph italic pattern is `/\*([^*]+?)\*/g` (content free
of `*`); on the content `**x*` the two yield `<em>*x</em>` and
`*<em>x</em>` respectively, visible through the full renderer. -/
theorem inline_substitution_amended :
    (∀ c : List Char, processListItem c = emAny (boldReplace c)
        ∧ processParagraph c = emNoStar (boldReplace c))
    ∧ processListItem "**x*".toList = "<em>*x</em>".toList
    ∧ processParagraph "**x*".toList = "*<em>x</em>".toList
    ∧ markdownToHtml "- **x*".toList
        = ("<ul class=\"list-disc list-inside space-y-1 my-2 ml-4\">"
            ++ "<li><em>*x</em></li></ul>").toList
    ∧ markdownToHtml "**x*".toList
        = "<p class=\"mb-2\">*<em>x</em></p>".toList :=
  ⟨fun _ => ⟨rfl, rfl⟩, by decide, by decide, by decide, by decide⟩

/-- C5: a trimmed line starting with `### `, `## ` or `# ` emits an
`h3`, `h2` or `h1` fragment whose content is the remainder of the line
after the marker and one space, verbatim (no inline substitution), with
the open list closed first if one is open; `# Title` gives a single
`<h1>` with exactly `Title` and no paragraph wrapper. -/
theorem heading_rendering :
    (∀ (t : List Char) (isLast inList : Bool), "### ".toList <+: t →
        lineFrags t isLast inList
          = ((if inList then [Frag.ulClose] else [])
              ++ [Frag.h3 (t.drop 4)], false))
    ∧ (∀ (t : List Char) (isLast inList : Bool), "## ".toList <+: t →
        lineFrags t isLast inList
          = ((if inList then [Frag.ulClose] else [])
              ++ [Frag.h2 (t.drop 3)], false))
    ∧ (∀ (t : List Char) (isLast inList : Bool), "# ".toList <+: t →
        lineFrags t isLast inList
          = ((if inList then [Frag.ulClose] else [])
              ++ [Frag.h1 (t.drop 2)], false))
    ∧ markdownToHtml "# Title".toList
        = "<h1 class=\"text-2xl font-bold mt-8 mb-4\">Title</h1>".toList :=
  ⟨lineFrags_h3, lineFrags_h2, lineFrags_h1, by decide⟩

/-- Witness for C5 at concrete heading lines. -/
theorem heading_rendering_witness :
    ("### ".toList <+: "### x".toList) ∧
      lineFrags "### x".toList false false
        = ((if false then [Frag.ulClose] else [])
            ++ [Frag.h3 ("### x".toList.drop 4)], false) :=
  ⟨by decide, heading_rendering.1 "### x".toList false false (by decide)⟩

/-- C6: a block of consecutive list-item lines reached with no list
open emits exactly one `<ul ...>` opening fragment, then one `<li>`
fragment per line carrying that line's captured content (inline
substitution applied) in input order; `- a\n- b` gives one `<ul>` with
exactly `<li>a</li><li>b</li>`, in that order. -/
theorem list_block_rendering :
    (∀ (ls rest : List (List Char)), ls ≠ [] →
        (∀ l ∈ ls, (listMatch (trim l)).isSome) →
        goFrags (ls ++ rest) false
          = Frag.ulOpen
              :: ls.map (fun l =>
                  Frag.li (processListItem ((listMatch (trim l)).getD [])))
              ++ goFrags rest true)
    ∧ markdownToHtml "- a\n- b".toList
        = ("<ul class=\"list-disc list-inside space-y-1 my-2 ml-4\">"
            ++ "<li>a</li><li>b</li></ul>").toList :=
  ⟨goFrags_list_block, by decide⟩

/-- Witness for C6 at a one-line list block. -/
theorem list_block_rendering_witness :
    goFrags (["- a".toList] ++ []) false
      = Frag.ulOpen
          :: ["- a".toList].map (fun l =>
              Frag.li (processListItem ((listMatch (trim l)).getD [])))
          ++ goFrags [] true :=
  list_block_rendering.1 ["- a".toList] [] (by decide) (by decide)

/-- C7: when a heading line is processed while a list is open, the
fragments pushed for that line are exactly the closing `</ul>` followed
by the heading, so the `</ul>` appears in the output before the
heading; `- item\n# Heading` closes the list before the `<h1>` even
though the input never explicitly closes it. -/
theorem list_closed_before_heading :
    (∀ (t : List Char) (isLast : Bool),
        ("# ".toList <+: t ∨ "## ".toList <+: t ∨ "### ".toList <+: t) →
        ∃ f, (lineFrags t isLast true).1 = [Frag.ulClose, f])
    ∧ markdownToHtml "- item\n# Heading".toList
        = ("<ul class=\"list-disc list-inside space-y-1 my-2 ml-4\">"
            ++ "<li>item</li></ul>"
            ++ "<h1 class=\"text-2xl font-bold mt-8 mb-4\">Heading</h1>").toList := by
  refine ⟨?_, by decide⟩
  intro t isLast h
  rcases h with h | h | h
  · exact ⟨Frag.h1 (t.drop 2), by rw [lineFrags_h1 t isLast true h]; rfl⟩
  · exact ⟨Frag.h2 (t.drop 3), by rw [lineFrags_h2 t isLast true h]; rfl⟩
  · exact ⟨Frag.h3 (t.drop 4), by rw [lineFrags_h3 t isLast true h]; rfl⟩

/-- Witness for C7 at a concrete heading line with a list open. -/
theorem list_closed_before_heading_witness :
    ("# ".toList <+: "# H".toList ∨ "## ".toList <+: "# H".toList ∨
        "### ".toList <+: "# H".toList) ∧
      ∃ f, (lineFrags "# H".toList true true).1 = [Frag.ulClose, f] :=
  ⟨by decide,
    list_closed_before_heading.1 "# H".toList true (by decide)⟩

/-- C8: a paragraph line (non-heading, non-list, non-blank) is wrapped
in `<p class="mb-2">` with bold replaced first (`**...**` to
`<strong>...</strong>`) and italic second (`*...*` with no inner `*` to
`<em>...</em>`); on `**bold** and *italic*` the output paragraph
contains both tags and no asterisk remains. -/
theorem paragraph_bold_italic :
    (∀ (t : List Char) (isLast inList : Bool),
        ¬ ("### ".toList <+: t) → ¬ ("## ".toList <+: t) →
        ¬ ("# ".toList <+: t) → listMatch t = none → t ≠ [] →
        lineFrags t isLast inList
          = ((if inList then [Frag.ulClose] else [])
              ++ [Frag.p (emNoStar (boldReplace t))], false))
    ∧ markdownToHtml "**bold** and *italic*".toList
        = "<p class=\"mb-2\"><strong>bold</strong> and <em>italic</em></p>".toList
    ∧ '*' ∉ markdownToHtml "**bold** and *italic*".toList :=
  ⟨lineFrags_paragraph, by decide, by decide⟩

/-- Witness for C8 at a concrete paragraph line. -/
theorem paragraph_bold_italic_witness :
    lineFrags "hello".toList false false
      = ((if false then [Frag.ulClose] else [])
          ++ [Frag.p (emNoStar (boldReplace "hello".toList))], false) :=
  paragraph_bold_italic.1 "hello".toList false false (by decide) (by decide)
    (by decide) (by decide) (by decide)

/-- C9: every `<ul ...>` opening fragment the renderer emits is
immediately followed in the emitted stream by an `<li>` fragment, so no
rendered list is empty. -/
theorem ulOpen_followed_by_li (m : List Char) (i : Nat)
    (h : (goFrags (splitLines m) false).get? i = some Frag.ulOpen) :
    ∃ c, (goFrags (splitLines m) false).get? (i + 1) = some (Frag.li c) :=
  goFrags_ulOpen_li (splitLines m) false i h

/-- Witness for C9 on a concrete document. -/
theorem ulOpen_followed_by_li_witness :
    (goFrags (splitLines "- a".toList) false).get? 0 = some Frag.ulOpen ∧
      ∃ c, (goFrags (splitLines "- a".toList) false).get? (0 + 1)
        = some (Frag.li c) :=
  ⟨by decide, ulOpen_followed_by_li "- a".toList 0 (by decide)⟩

/-- C10: the empty document renders to the empty string: splitting `""`
yields the single empty line, which (blank and last) emits no fragment
at all. -/
theorem markdownToHtml_empty :
    splitLines [] = [[]] ∧ goFrags [[]] false = []
      ∧ markdownToHtml [] = [] :=
  ⟨rfl, rfl, rfl⟩
